import Mathlib

/-!
Verification of the AI governance demo.

The repository's visible source is the SvelteKit UI: the REST client
(`ui/src/lib/api.ts`), the dashboard, the policies page and the approvals
page.  The governance backend (risk scorer, policy matrix, approval
ledger, decision engine, reached through the FastAPI endpoints the client
calls) is not part of the visible source, so those components are
modelled here from the specification, faithfully to its wording; each
such definition carries a doc comment starting `Modelled from the spec:`.
Definitions taken from the TypeScript source mirror it directly.
-/

namespace Governance

/-- Risk band of an agent: green, amber or red. -/
inductive Band where
| green
| amber
| red
deriving DecidableEq, Repr

/-- Severity rank of a band, used to state monotonicity (green < amber < red). -/
def Band.rank : Band → Nat
| .green => 0
| .amber => 1
| .red => 2

/-- Band thresholds, mirroring `RiskConfig.band_thresholds` (api.ts): one
numeric cut-off for amber and one for red. -/
structure Thresholds where
  amber : ℚ
  red : ℚ
deriving DecidableEq, Repr

/-- Modelled from the spec: band assignment of the Risk Scorer (§4.1):
`score >= threshold[red] → red; else score >= threshold[amber] → amber; else green`. -/
def bandOf (t : Thresholds) (s : ℚ) : Band :=
  if t.red ≤ s then .red
  else if t.amber ≤ s then .amber
  else .green

/-- The five signal dimensions of a Signal Set (§3). -/
def signalDims : List String :=
  ["data_class", "output_scope", "autonomy", "reach", "external_tools"]

/-- Modelled from the spec: contribution of one dimension to the weighted
sum (§4.1): a present dimension contributes `weight[dimension][observed_value]`,
a missing dimension contributes 0. -/
def contribution (w : String → String → ℚ) (s : String → Option String)
    (dim : String) : ℚ :=
  match s dim with
  | some v => w dim v
  | none => 0

/-- Modelled from the spec: the Risk Scorer's numeric score (§4.1), the
weighted sum of the contributions of the five signal dimensions. -/
def score (w : String → String → ℚ) (s : String → Option String) : ℚ :=
  (signalDims.map (contribution w s)).sum

/-- Replace the observed value of one signal dimension, leaving the others. -/
def updateSignal (s : String → Option String) (d v : String) :
    String → Option String :=
  fun d' => if d' = d then some v else s d'

/-- C6: the Risk Scorer's band is red iff score ≥ threshold[red], else amber
iff score ≥ threshold[amber], else green; and with non-decreasing thresholds
the band is a monotone function of the score. -/
theorem bandOf_assignment_monotone (t : Thresholds) (hmono : t.amber ≤ t.red)
    (s1 s2 : ℚ) (h : s1 ≤ s2) :
    (∀ x : ℚ, bandOf t x =
      if t.red ≤ x then .red else if t.amber ≤ x then .amber else .green) ∧
    (bandOf t s1).rank ≤ (bandOf t s2).rank := by
  refine ⟨fun x => rfl, ?_⟩
  unfold bandOf
  split_ifs <;> simp [Band.rank] <;> linarith

/-- Witness for C6: thresholds amber = 40, red = 70; scores 10 ≤ 80. -/
theorem bandOf_assignment_monotone_witness :
    (bandOf ⟨40, 70⟩ 10).rank ≤ (bandOf ⟨40, 70⟩ 80).rank :=
  (bandOf_assignment_monotone ⟨40, 70⟩ (by norm_num) 10 80 (by norm_num)).2

/-- C7: for a fixed weight table, replacing the observed value of one signal
dimension by a value whose weight is at least as large never decreases the
score. -/
theorem score_monotone_in_severity (w : String → String → ℚ)
    (s : String → Option String) (d v v' : String)
    (hobs : s d = some v) (hw : w d v ≤ w d v') :
    score w s ≤ score w (updateSignal s d v') := by
  unfold score
  apply List.sum_le_sum
  intro dim _
  unfold contribution updateSignal
  by_cases hd : dim = d
  · subst hd
    rw [hobs]
    simp [hw]
  · simp [hd]

/-- Witness for C7: raising autonomy from read_only (weight 5) to
auto_action (weight 20) does not decrease the score. -/
theorem score_monotone_in_severity_witness :
    score (fun d v => if d = "autonomy" then (if v = "auto_action" then 20 else 5) else 0)
        (fun d => if d = "autonomy" then some "read_only" else none) ≤
      score (fun d v => if d = "autonomy" then (if v = "auto_action" then 20 else 5) else 0)
        (updateSignal (fun d => if d = "autonomy" then some "read_only" else none)
          "autonomy" "auto_action") :=
  score_monotone_in_severity _ _ "autonomy" "read_only" "auto_action"
    (by simp) (by decide)

/-! The REST client `ui/src/lib/api.ts`.  Every exported function performs a
`fetch` and passes the response through the shared `handle` helper.  The
network side is abstracted: each Lean counterpart takes the `HttpResponse`
its fetch produced (plus the request parameters of the original, kept as
plain values) and returns what the TypeScript function returns or throws. -/

/-- An HTTP response as `handle` observes it: `ok` flag, numeric status,
error text and (on success) the JSON body, kept abstract as a string. -/
structure HttpResponse where
  ok : Bool
  status : Nat
  text : String
  body : String
deriving DecidableEq, Repr

/-- The shared response handler (api.ts lines 180-186): on a non-ok response
it throws an Error whose message interpolates the status and body text after
the fixed "metrics_failed: " prefix; on an ok response it returns the parsed
JSON body. -/
def handle (resp : HttpResponse) : Except String String :=
  if resp.ok then .ok resp.body
  else .error ("metrics_failed: " ++ toString resp.status ++ " " ++ resp.text)

/-- GET /admin/metrics (api.ts). -/
def fetchAdminMetrics (resp : HttpResponse) : Except String String := handle resp

/-- POST /admin/recompute_all (api.ts). -/
def recomputeAllSignals (resp : HttpResponse) : Except String String := handle resp

/-- POST /sdk/check_and_header with a JSON payload (api.ts). -/
def sdkCheck (payload : String) (resp : HttpResponse) : Except String String :=
  handle resp

/-- GET /agents with query parameters (api.ts). -/
def fetchAgents (params : String) (resp : HttpResponse) : Except String String :=
  handle resp

/-- GET /admin/approvals?status=...&limit=... (api.ts). -/
def fetchApprovals (status : String) (limit : Nat) (resp : HttpResponse) :
    Except String String :=
  handle resp

/-- POST /admin/approvals/id/decision (api.ts). -/
def decideApproval (i : Nat) (body : String) (resp : HttpResponse) :
    Except String String :=
  handle resp

/-- GET /policies/risk_scoring (api.ts). -/
def fetchRiskConfig (resp : HttpResponse) : Except String String := handle resp

/-- PUT /policies/risk_scoring (api.ts). -/
def saveRiskConfig (config : String) (resp : HttpResponse) :
    Except String String :=
  handle resp

/-- GET /policies/classifications (api.ts). -/
def fetchClassificationPolicy (resp : HttpResponse) : Except String String :=
  handle resp

/-- PUT /policies/classifications (api.ts). -/
def saveClassificationPolicy (policy : String) (resp : HttpResponse) :
    Except String String :=
  handle resp

/-- GET /policies/actions (api.ts). -/
def fetchActionPolicies (resp : HttpResponse) : Except String String :=
  handle resp

/-- PUT /policies/actions/id (api.ts). -/
def updateActionPolicyApi (i : Nat) (payload : String) (resp : HttpResponse) :
    Except String String :=
  handle resp

/-- POST /policies/apply (api.ts). -/
def applyPolicies (resp : HttpResponse) : Except String String := handle resp

/-- The exported client functions, each as a map from its fetch response to
its result, with arbitrary fixed request parameters. -/
def apiClientFunctions (payload params status body config policy : String)
    (i j : Nat) : List (HttpResponse → Except String String) :=
  [fetchAdminMetrics, recomputeAllSignals, sdkCheck payload,
   fetchAgents params, fetchApprovals status j, decideApproval i body,
   fetchRiskConfig, saveRiskConfig config, fetchClassificationPolicy,
   saveClassificationPolicy policy, fetchActionPolicies,
   updateActionPolicyApi i payload, applyPolicies]

/-- C9: every function of the UI API client, on a non-ok HTTP response,
throws an Error whose message begins with "metrics_failed: " followed by the
HTTP status code (whatever the endpoint), and never returns a value; on an
ok response it returns the parsed JSON body. -/
theorem apiClient_error_format (payload params status body config policy : String)
    (i j : Nat) :
    ∀ f ∈ apiClientFunctions payload params status body config policy i j,
      ∀ resp : HttpResponse,
        (resp.ok = false →
          ∃ rest, f resp = .error ("metrics_failed: " ++ toString resp.status ++ rest)) ∧
        (resp.ok = true → f resp = .ok resp.body) := by
  intro f hf resp
  have hcases : f = handle := by
    simp only [apiClientFunctions, List.mem_cons, List.not_mem_nil,
      or_false] at hf
    rcases hf with h | h | h | h | h | h | h | h | h | h | h | h | h <;>
      subst h <;> rfl
  subst hcases
  constructor
  · intro hko
    exact ⟨" " ++ resp.text, by simp [handle, hko, String.append_assoc]⟩
  · intro hok
    simp [handle, hok]

/-- Witness for C9: a 500 response to the metrics fetch produces a
"metrics_failed: 500 ..." error; a 200 response returns the body. -/
theorem apiClient_error_format_witness :
    (∃ rest, fetchAdminMetrics ⟨false, 500, "boom", ""⟩ =
      .error ("metrics_failed: " ++ toString 500 ++ rest)) ∧
    fetchAdminMetrics ⟨true, 200, "", "payload"⟩ = .ok "payload" :=
  ⟨(apiClient_error_format "" "" "" "" "" "" 0 0 fetchAdminMetrics
      (by simp [apiClientFunctions]) ⟨false, 500, "boom", ""⟩).1 rfl,
   (apiClient_error_format "" "" "" "" "" "" 0 0 fetchAdminMetrics
      (by simp [apiClientFunctions]) ⟨true, 200, "", "payload"⟩).2 rfl⟩

/-! The approvals page `ui/src/routes/approvals/+page.svelte`. -/

/-- An approval row as the approvals page consumes it; `decided_at` is the
decision timestamp in epoch milliseconds, `none` when the JSON field is null. -/
structure ApprovalRow where
  id : Nat
  agent_id : String
  action : String
  status : String
  decided_at : Option Int
deriving DecidableEq, Repr

/-- The comparator key of `loadApprovals` (approvals page lines 25-29):
`new Date(decided_at).getTime()` when present, 0 when null. -/
def decidedTime (a : ApprovalRow) : Int :=
  match a.decided_at with
  | some t => t
  | none => 0

/-- The sort order of the history table: descending by `decidedTime`
(the comparator returns `bTime - aTime`). -/
def historyOrder (a b : ApprovalRow) : Bool := decidedTime b ≤ decidedTime a

/-- `historyApprovals` after a successful `loadApprovals`: the fetched
approved and rejected rows, sorted by decision time, most recent first. -/
def historyApprovals (approved rejected : List ApprovalRow) : List ApprovalRow :=
  (approved ++ rejected).mergeSort historyOrder

theorem historyOrder_trans (a b c : ApprovalRow) :
    historyOrder a b = true → historyOrder b c = true → historyOrder a c = true := by
  simp only [historyOrder, decide_eq_true_eq]
  omega

theorem historyOrder_total (a b : ApprovalRow) :
    (historyOrder a b || historyOrder b a) = true := by
  simp only [historyOrder, Bool.or_eq_true, decide_eq_true_eq]
  omega

/-- C10: after a successful `loadApprovals`, `historyApprovals` is exactly
the fetched approved and rejected records, sorted descending by decision
time, where a null `decided_at` counts as time 0 and therefore (all real
decision times being positive) every null-decided row sits after every row
with a real decision time. -/
theorem historyApprovals_sorted_desc (approved rejected : List ApprovalRow)
    (hpos : ∀ a ∈ approved ++ rejected, ∀ t, a.decided_at = some t → 0 < t) :
    (historyApprovals approved rejected).Perm (approved ++ rejected) ∧
    (historyApprovals approved rejected).Pairwise
      (fun a b => decidedTime b ≤ decidedTime a) ∧
    (historyApprovals approved rejected).Pairwise
      (fun a b => a.decided_at = none → b.decided_at = none) := by
  have hperm : (historyApprovals approved rejected).Perm (approved ++ rejected) :=
    List.mergeSort_perm _ _
  have hsorted : (historyApprovals approved rejected).Pairwise
      (fun a b => historyOrder a b = true) :=
    List.sorted_mergeSort historyOrder_trans historyOrder_total _
  have hsorted' : (historyApprovals approved rejected).Pairwise
      (fun a b => decidedTime b ≤ decidedTime a) := by
    refine hsorted.imp ?_
    intro a b hab
    simpa [historyOrder] using hab
  refine ⟨hperm, hsorted', ?_⟩
  have hmem : ∀ a ∈ historyApprovals approved rejected,
      ∀ t, a.decided_at = some t → 0 < t := by
    intro a ha
    exact hpos a (hperm.mem_iff.mp ha)
  refine List.Pairwise.imp_of_mem ?_ hsorted'
  intro a b ha hb hle hnone
  cases hb' : b.decided_at with
  | none => rfl
  | some t =>
    exfalso
    have hta : decidedTime a = 0 := by simp [decidedTime, hnone]
    have htb : decidedTime b = t := by simp [decidedTime, hb']
    have := hmem b hb t hb'
    omega

/-- Witness for C10: one approved row decided at time 5, one rejected row
with a null decision time; the theorem applies and the null row sorts last. -/
theorem historyApprovals_sorted_desc_witness :
    (historyApprovals [⟨1, "a", "send_email", "approved", some 5⟩]
        [⟨2, "b", "send_email", "rejected", none⟩]).Pairwise
      (fun a b => a.decided_at = none → b.decided_at = none) :=
  (historyApprovals_sorted_desc [⟨1, "a", "send_email", "approved", some 5⟩]
    [⟨2, "b", "send_email", "rejected", none⟩]
    (by intro a ha t ht; simp at ha; rcases ha with h | h <;> subst h <;>
        simp at ht <;> omega)).2.2

/-! The Governance Decision Engine.  The backend implementing it (policy
matrix, approval ledger, evaluate, decide, updateRule) is reached only
through HTTP from the UI and is not part of the visible source, so it is
modelled from the spec (sections 3, 4.2, 4.3, 4.4). -/

/-- Allow/approval flags per band, mirroring the `allow` / `approval`
objects of `ActionPolicy` (api.ts): one boolean per band. -/
structure BandFlags where
  green : Bool
  amber : Bool
  red : Bool
deriving DecidableEq, Repr

/-- Flag of a given band. -/
def BandFlags.get (f : BandFlags) : Band → Bool
| .green => f.green
| .amber => f.amber
| .red => f.red

/-- Modelled from the spec: a Policy Rule (§3), keyed by action name in the
engine state; `version` counts the edits of the allow/approval booleans so a
record can be bound to the policy version in force at its creation. -/
structure Rule where
  status : String
  allow : BandFlags
  approval_required : BandFlags
  version : Nat
deriving DecidableEq, Repr

/-- Modelled from the spec: the auto-created default rule for a verb first
observed without a human-authored rule (§3, §4.2): status needs_review and,
matching the §8 scenario where a fresh rule yields a pending approval,
allowed with approval required in every band. -/
def defaultRule : Rule :=
  { status := "needs_review", allow := ⟨true, true, true⟩,
    approval_required := ⟨true, true, true⟩, version := 0 }

/-- Modelled from the spec: lifecycle states of an Approval Record (§3). -/
inductive ApprStatus where
| pending
| approved
| rejected
| policy_expired
| risk_shift
deriving DecidableEq, Repr

/-- Modelled from the spec: an Approval Record (§3): agent, action, the band
and rule version in force at creation, lifecycle status and decision data. -/
structure ApprovalRecord where
  id : Nat
  agent_id : String
  action_name : String
  band : Band
  status : ApprStatus
  ruleVersion : Nat
  decided_by : Option String
  note : Option String
deriving DecidableEq, Repr

/-- Modelled from the spec: the engine's persistent state — the Policy
Matrix (action name to rule), the Approval Ledger and the next fresh
record id. -/
structure EngineState where
  rules : List (String × Rule)
  approvals : List ApprovalRecord
  nextId : Nat
deriving DecidableEq, Repr

/-- Rule currently stored for an action, if any. -/
def lookupRule (st : EngineState) (act : String) : Option Rule :=
  (st.rules.find? (fun p => p.1 == act)).map Prod.snd

/-- Modelled from the spec: `getRule(action)` (§4.2): returns the stored
rule, auto-creating and persisting the default `needs_review` rule on a
first miss. -/
def getRule (st : EngineState) (act : String) : Rule × EngineState :=
  match lookupRule st act with
  | some r => (r, st)
  | none => (defaultRule, { st with rules := (act, defaultRule) :: st.rules })

/-- Outcome of one `evaluate` call (§4.3 step 6). -/
inductive Outcome where
| blocked
| allowed
| approval_required
deriving DecidableEq, Repr

/-- Decision returned by `evaluate` (§4.3 step 6): the outcome, the band it
was taken under, and the approval record id when approval is required. -/
structure Decision where
  outcome : Outcome
  band : Band
  approval_id : Option Nat
deriving DecidableEq, Repr

/-- Does this record hold the active (pending) approval of (agent, action)? -/
def isPendingFor (agent act : String) (r : ApprovalRecord) : Bool :=
  r.agent_id == agent && r.action_name == act &&
    decide (r.status = ApprStatus.pending)

/-- A fresh pending Approval Record under a given id, capturing the current
band and rule version. -/
def freshRec (i : Nat) (agent act : String) (band : Band) (ver : Nat) :
    ApprovalRecord :=
  { id := i, agent_id := agent, action_name := act, band := band,
    status := .pending, ruleVersion := ver, decided_by := none, note := none }

/-- Transition the record with the given id to risk_shift, leaving others. -/
def expireShift (i : Nat) (q : ApprovalRecord) : ApprovalRecord :=
  if q.id = i then { q with status := .risk_shift } else q

/-- Modelled from the spec: creation of a fresh pending Approval Record
(§4.3 step 5c) with the current band and rule version, under the next
fresh id. -/
def createRecord (st : EngineState) (agent act : String) (band : Band)
    (ver : Nat) : Decision × EngineState :=
  ({ outcome := .approval_required, band := band, approval_id := some st.nextId },
   { st with
     approvals := freshRec st.nextId agent act band ver :: st.approvals,
     nextId := st.nextId + 1 })

/-- Modelled from the spec: `evaluate(agent_id, action_name, ctx)` (§4.3)
given the agent's current band (step 1 resolves it via the Risk Scorer):
resolve the rule (auto-creating); blocked when the band is not allowed, with
no record created; allowed when no approval is required; otherwise reuse the
active pending record when its band and rule version still match, or expire
it as risk_shift and create a fresh pending record.  A pending record whose
rule version differs from the current rule cannot occur, because updateRule
expires every pending record of the action when it bumps the version. -/
def evaluate (st : EngineState) (agent act : String) (band : Band) :
    Decision × EngineState :=
  let g := getRule st act
  let rule := g.1
  let st1 := g.2
  if rule.allow.get band = false then
    ({ outcome := .blocked, band := band, approval_id := none }, st1)
  else if rule.approval_required.get band = false then
    ({ outcome := .allowed, band := band, approval_id := none }, st1)
  else
    match st1.approvals.find? (isPendingFor agent act) with
    | some r0 =>
      if r0.band = band ∧ r0.ruleVersion = rule.version then
        ({ outcome := .approval_required, band := band,
           approval_id := some r0.id }, st1)
      else
        let st2 := { st1 with approvals := st1.approvals.map (expireShift r0.id) }
        createRecord st2 agent act band rule.version
    | none => createRecord st1 agent act band rule.version

/-- A human decision is either approve or reject (`ApprovalDecisionInput`
in api.ts restricts the posted status to these two). -/
inductive DecideChoice where
| approve
| reject
deriving DecidableEq, Repr

/-- Status an approve/reject decision writes. -/
def DecideChoice.toStatus : DecideChoice → ApprStatus
| .approve => .approved
| .reject => .rejected

/-- Errors of the Approval Ledger (§4.4, §7). -/
inductive LedgerError where
| not_found
| invalid_transition
deriving DecidableEq, Repr

/-- The record as a decision rewrites it: new status, decider and note. -/
def decidedRec (r : ApprovalRecord) (c : DecideChoice) (decider : String)
    (note : Option String) : ApprovalRecord :=
  { r with status := c.toStatus, decided_by := some decider, note := note }

/-- Modelled from the spec: `decide(id, status, decider, note)` (§4.4):
fails with InvalidTransition, leaving the state untouched, unless the
record is currently pending; otherwise writes the decision. -/
def decideRecord (st : EngineState) (i : Nat) (c : DecideChoice)
    (decider : String) (note : Option String) :
    Except LedgerError ApprovalRecord × EngineState :=
  match st.approvals.find? (fun r => r.id == i) with
  | none => (.error .not_found, st)
  | some r =>
    if r.status = ApprStatus.pending then
      (.ok (decidedRec r c decider note),
       { st with approvals := st.approvals.map (fun q =>
         if q.id = i then decidedRec r c decider note else q) })
    else (.error .invalid_transition, st)

/-- A partial update of a rule, mirroring the `Partial ActionPolicy` payload
the UI PUTs to /policies/actions/id: only the present fields are applied. -/
structure RulePatch where
  allow : Option BandFlags
  approval_required : Option BandFlags
  status : Option String
deriving DecidableEq, Repr

/-- Does the patch edit the allow/approval booleans? -/
def RulePatch.editsBooleans (p : RulePatch) : Bool :=
  p.allow.isSome || p.approval_required.isSome

/-- Transition a pending record of the action to policy_expired, leaving
all other records. -/
def expirePolicy (act : String) (q : ApprovalRecord) : ApprovalRecord :=
  if q.action_name == act && decide (q.status = ApprStatus.pending)
  then { q with status := .policy_expired } else q

/-- Modelled from the spec: `updateRule(action, patch)` (§4.2): applies the
present patch fields to the stored rule; when the patch edits the
allow/approval booleans it bumps the rule version and — mandatorily —
transitions every pending Approval Record of the action to policy_expired. -/
def updateRule (st : EngineState) (act : String) (p : RulePatch) : EngineState :=
  match lookupRule st act with
  | none => st
  | some r =>
    let r' : Rule :=
      { status := p.status.getD r.status,
        allow := p.allow.getD r.allow,
        approval_required := p.approval_required.getD r.approval_required,
        version := if p.editsBooleans then r.version + 1 else r.version }
    let rules' := st.rules.map (fun q => if q.1 = act then (q.1, r') else q)
    let approvals' :=
      if p.editsBooleans then st.approvals.map (expirePolicy act)
      else st.approvals
    { st with rules := rules', approvals := approvals' }

/-- The payload `markReviewed` in the policies page PUTs for a rule:
`{ status: "approved" }` (policies page lines 81-85). -/
def markReviewedPatch : RulePatch :=
  { allow := none, approval_required := none, status := some "approved" }

/-- The mark-reviewed operation as the UI performs it. -/
def markReviewed (st : EngineState) (act : String) : EngineState :=
  updateRule st act markReviewedPatch

/-- Status of the record with a given id, if any. -/
def statusOfId (st : EngineState) (i : Nat) : Option ApprStatus :=
  (st.approvals.find? (fun r => r.id == i)).map ApprovalRecord.status

/-- One step of the system: an evaluate call, a rule update or a human
decision. -/
inductive Step : EngineState → EngineState → Prop where
| eval (st : EngineState) (agent act : String) (band : Band) :
    Step st (evaluate st agent act band).2
| update (st : EngineState) (act : String) (p : RulePatch) :
    Step st (updateRule st act p)
| decided (st : EngineState) (i : Nat) (c : DecideChoice) (decider : String)
    (note : Option String) : Step st (decideRecord st i c decider note).2

/-- Well-formed ledger: record ids are pairwise distinct and below the next
fresh id. -/
def WfIds (st : EngineState) : Prop :=
  st.approvals.Pairwise (fun a b => a.id ≠ b.id) ∧
    ∀ r ∈ st.approvals, r.id < st.nextId

/-! Supporting lemmas about the engine operations. -/

theorem getRule_approvals (st : EngineState) (act : String) :
    (getRule st act).2.approvals = st.approvals := by
  unfold getRule
  cases h : lookupRule st act <;> simp [h]

theorem getRule_nextId (st : EngineState) (act : String) :
    (getRule st act).2.nextId = st.nextId := by
  unfold getRule
  cases h : lookupRule st act <;> simp [h]

theorem getRule_of_lookup {st : EngineState} {act : String} {r : Rule}
    (h : lookupRule st act = some r) : getRule st act = (r, st) := by
  unfold getRule
  rw [h]

theorem lookupRule_getRule (st : EngineState) (act : String) :
    lookupRule (getRule st act).2 act = some (getRule st act).1 := by
  unfold getRule
  cases h : lookupRule st act with
  | some r => simpa using h
  | none =>
    simp [lookupRule, List.find?_cons_of_pos _ (beq_self_eq_true act)]

/-- Branch equation: blocked. -/
theorem evaluate_eq_blocked {st : EngineState} {agent act : String} {band : Band}
    (hA : ((getRule st act).1).allow.get band = false) :
    evaluate st agent act band =
      ({ outcome := .blocked, band := band, approval_id := none },
       (getRule st act).2) := by
  simp only [evaluate]
  rw [if_pos hA]

/-- Branch equation: allowed. -/
theorem evaluate_eq_allowed {st : EngineState} {agent act : String} {band : Band}
    (hA : ¬ ((getRule st act).1).allow.get band = false)
    (hB : ((getRule st act).1).approval_required.get band = false) :
    evaluate st agent act band =
      ({ outcome := .allowed, band := band, approval_id := none },
       (getRule st act).2) := by
  simp only [evaluate]
  rw [if_neg hA, if_pos hB]

/-- Branch equation: idempotent reuse of the active pending record. -/
theorem evaluate_eq_reuse {st : EngineState} {agent act : String} {band : Band}
    {r0 : ApprovalRecord}
    (hA : ¬ ((getRule st act).1).allow.get band = false)
    (hB : ¬ ((getRule st act).1).approval_required.get band = false)
    (hfind : (getRule st act).2.approvals.find? (isPendingFor agent act) = some r0)
    (hcond : r0.band = band ∧ r0.ruleVersion = ((getRule st act).1).version) :
    evaluate st agent act band =
      ({ outcome := .approval_required, band := band, approval_id := some r0.id },
       (getRule st act).2) := by
  simp only [evaluate]
  rw [if_neg hA, if_neg hB, hfind]
  simp only [if_pos hcond]

/-- Branch equation: risk shift of the stale pending record, then creation. -/
theorem evaluate_eq_shift {st : EngineState} {agent act : String} {band : Band}
    {r0 : ApprovalRecord}
    (hA : ¬ ((getRule st act).1).allow.get band = false)
    (hB : ¬ ((getRule st act).1).approval_required.get band = false)
    (hfind : (getRule st act).2.approvals.find? (isPendingFor agent act) = some r0)
    (hcond : ¬ (r0.band = band ∧ r0.ruleVersion = ((getRule st act).1).version)) :
    evaluate st agent act band =
      createRecord
        { (getRule st act).2 with
          approvals := (getRule st act).2.approvals.map (expireShift r0.id) }
        agent act band ((getRule st act).1).version := by
  simp only [evaluate]
  rw [if_neg hA, if_neg hB, hfind]
  simp only [if_neg hcond]

/-- Branch equation: creation of a fresh pending record. -/
theorem evaluate_eq_create {st : EngineState} {agent act : String} {band : Band}
    (hA : ¬ ((getRule st act).1).allow.get band = false)
    (hB : ¬ ((getRule st act).1).approval_required.get band = false)
    (hfind : (getRule st act).2.approvals.find? (isPendingFor agent act) = none) :
    evaluate st agent act band =
      createRecord (getRule st act).2 agent act band ((getRule st act).1).version := by
  simp only [evaluate]
  rw [if_neg hA, if_neg hB, hfind]

/-- Records of equal id in an id-distinct list are equal. -/
theorem eq_of_mem_of_id_eq {l : List ApprovalRecord}
    (hl : l.Pairwise (fun a b => a.id ≠ b.id)) {r q : ApprovalRecord}
    (hr : r ∈ l) (hq : q ∈ l) (h : r.id = q.id) : r = q := by
  induction l with
  | nil => cases hr
  | cons a t ih =>
    rcases List.pairwise_cons.mp hl with ⟨ha, ht⟩
    rcases List.mem_cons.mp hr with hr' | hr' <;>
      rcases List.mem_cons.mp hq with hq' | hq'
    · rw [hr', hq']
    · exact absurd (hr' ▸ h) (ha q hq')
    · exact absurd (hq' ▸ h).symm (ha r hr')
    · exact ih ht hr' hq'

/-- In an id-distinct list, searching a member's id finds that member. -/
theorem find?_id_of_mem {l : List ApprovalRecord}
    (hl : l.Pairwise (fun a b => a.id ≠ b.id)) {r : ApprovalRecord}
    (hr : r ∈ l) : l.find? (fun q => q.id == r.id) = some r := by
  induction l with
  | nil => cases hr
  | cons a t ih =>
    rcases List.pairwise_cons.mp hl with ⟨ha, ht⟩
    rcases List.mem_cons.mp hr with h | h
    · subst h
      exact List.find?_cons_of_pos _ (beq_self_eq_true r.id)
    · have hne : (a.id == r.id) = false :=
        beq_eq_false_iff_ne.mpr (ha r h)
      rw [List.find?_cons_of_neg _ (by simp [hne]), ih ht h]

/-- Searching by id commutes with an id-preserving map. -/
theorem find?_id_map {f : ApprovalRecord → ApprovalRecord}
    (hf : ∀ q, (f q).id = q.id) (l : List ApprovalRecord) (i : Nat) :
    (l.map f).find? (fun q => q.id == i) =
      (l.find? (fun q => q.id == i)).map f := by
  induction l with
  | nil => rfl
  | cons a t ih =>
    by_cases h : (a.id == i) = true
    · have hfa : ((f a).id == i) = true := by rw [hf]; exact h
      simp [List.find?_cons, h, hfa]
    · have hfa : ¬ ((f a).id == i) = true := by rw [hf]; exact h
      simp [List.find?_cons, h, hfa, ih]

/-- A list of length at most one containing x is exactly the singleton x. -/
theorem eq_singleton_of_mem_of_length_le_one {α : Type} {l : List α} {x : α}
    (hx : x ∈ l) (hl : l.length ≤ 1) : l = [x] := by
  cases l with
  | nil => cases hx
  | cons a t =>
    cases t with
    | nil => rw [List.mem_singleton.mp hx]
    | cons b u => simp at hl

/-- Filtering after a map that either fixes an element or falsifies the
predicate yields at most as many elements. -/
theorem length_filter_map_le {α : Type} (p : α → Bool) (f : α → α)
    (h : ∀ q, p (f q) = true → f q = q) (l : List α) :
    ((l.map f).filter p).length ≤ (l.filter p).length := by
  induction l with
  | nil => simp
  | cons a t ih =>
    rw [List.map_cons, List.filter_cons, List.filter_cons]
    by_cases hpa : p (f a) = true
    · rw [if_pos hpa, h a hpa, if_pos (h a hpa ▸ hpa)]
      simpa using ih
    · rw [if_neg hpa]
      split_ifs with hq
      · calc ((t.map f).filter p).length ≤ (t.filter p).length := ih
          _ ≤ (a :: t.filter p).length := by simp
      · exact ih

/-- Effect shapes of one `evaluate` call on the ledger: either the approvals
are untouched (blocked, allowed, or reuse of the found pending record), or a
fresh pending record is prepended, possibly after the found stale pending
record was transitioned to risk_shift. -/
theorem evaluate_cases (st : EngineState) (agent act : String) (band : Band) :
    ((evaluate st agent act band).2.approvals = st.approvals ∧
     (evaluate st agent act band).2.nextId = st.nextId ∧
     ((evaluate st agent act band).1.approval_id = none ∨
      ∃ r0, st.approvals.find? (isPendingFor agent act) = some r0 ∧
        (evaluate st agent act band).1.approval_id = some r0.id)) ∨
    (∃ ver, (evaluate st agent act band).2.approvals =
        freshRec st.nextId agent act band ver :: st.approvals ∧
      (evaluate st agent act band).2.nextId = st.nextId + 1 ∧
      (evaluate st agent act band).1.approval_id = some st.nextId ∧
      st.approvals.find? (isPendingFor agent act) = none) ∨
    (∃ ver r0, st.approvals.find? (isPendingFor agent act) = some r0 ∧
      (evaluate st agent act band).2.approvals =
        freshRec st.nextId agent act band ver ::
          st.approvals.map (expireShift r0.id) ∧
      (evaluate st agent act band).2.nextId = st.nextId + 1 ∧
      (evaluate st agent act band).1.approval_id = some st.nextId) := by
  have happ := getRule_approvals st act
  have hnext := getRule_nextId st act
  by_cases hA : ((getRule st act).1).allow.get band = false
  · left
    rw [evaluate_eq_blocked hA]
    exact ⟨happ, hnext, Or.inl rfl⟩
  · by_cases hB : ((getRule st act).1).approval_required.get band = false
    · left
      rw [evaluate_eq_allowed hA hB]
      exact ⟨happ, hnext, Or.inl rfl⟩
    · cases hfind : (getRule st act).2.approvals.find? (isPendingFor agent act) with
      | some r0 =>
        by_cases hcond : r0.band = band ∧ r0.ruleVersion = ((getRule st act).1).version
        · left
          rw [evaluate_eq_reuse hA hB hfind hcond]
          exact ⟨happ, hnext, Or.inr ⟨r0, happ ▸ hfind, rfl⟩⟩
        · right; right
          refine ⟨((getRule st act).1).version, r0, happ ▸ hfind, ?_, ?_, ?_⟩ <;>
            rw [evaluate_eq_shift hA hB hfind hcond] <;>
            simp [createRecord, happ, hnext]
      | none =>
        right; left
        refine ⟨((getRule st act).1).version, ?_, ?_, ?_, happ ▸ hfind⟩ <;>
          rw [evaluate_eq_create hA hB hfind] <;>
          simp [createRecord, happ, hnext]

/-- C2: whenever the governing rule (auto-created if unseen) denies the
agent's current band, `evaluate` returns blocked, carries no approval id,
and creates no Approval Record — whatever pending or approved records
already exist for the pair. -/
theorem evaluate_fail_closed_blocked (st : EngineState) (agent act : String)
    (band : Band) (h : ((getRule st act).1).allow.get band = false) :
    (evaluate st agent act band).1.outcome = .blocked ∧
    (evaluate st agent act band).1.approval_id = none ∧
    (evaluate st agent act band).2.approvals = st.approvals := by
  rw [evaluate_eq_blocked h]
  exact ⟨rfl, rfl, getRule_approvals st act⟩

/-- An approved record on file for agent A and send_email, used by witnesses. -/
def wApprovedRec : ApprovalRecord :=
  { id := 1, agent_id := "A", action_name := "send_email", band := .red,
    status := .approved, ruleVersion := 2, decided_by := some "alice",
    note := none }

/-- A state whose rule denies the red band, with an approved record on file. -/
def wBlockState : EngineState :=
  { rules := [("send_email",
      { status := "active", allow := ⟨true, true, false⟩,
        approval_required := ⟨false, false, true⟩, version := 3 })],
    approvals := [wApprovedRec],
    nextId := 2 }

/-- Witness for C2: a rule denying red, an agent in red band with an
approved record already on file: the call is blocked and adds no record. -/
theorem evaluate_fail_closed_blocked_witness :
    (evaluate wBlockState "A" "send_email" .red).1.outcome = .blocked :=
  (evaluate_fail_closed_blocked wBlockState "A" "send_email" .red (by decide)).1

/-- C4: `decide` on a record whose status is approved, rejected,
policy_expired or risk_shift fails with InvalidTransition and leaves the
state untouched; it can only succeed on a currently pending record. -/
theorem decide_terminal_immutable (st : EngineState) (i : Nat)
    (c : DecideChoice) (decider : String) (note : Option String)
    (r : ApprovalRecord)
    (hr : st.approvals.find? (fun q => q.id == i) = some r) :
    (r.status = .approved ∨ r.status = .rejected ∨
        r.status = .policy_expired ∨ r.status = .risk_shift →
      (decideRecord st i c decider note).1 = .error .invalid_transition ∧
      (decideRecord st i c decider note).2 = st) ∧
    (∀ r', (decideRecord st i c decider note).1 = .ok r' →
      r.status = .pending) := by
  unfold decideRecord
  simp only [hr]
  by_cases hp : r.status = ApprStatus.pending
  · rw [if_pos hp]
    constructor
    · intro hterm
      rcases hterm with h | h | h | h <;> rw [hp] at h <;> cases h
    · intro r' _
      exact hp
  · rw [if_neg hp]
    exact ⟨fun _ => ⟨rfl, rfl⟩, fun r' h => by cases h⟩

/-- A state holding only the approved record, used by the C4 witness. -/
def wDecidedState : EngineState :=
  { rules := [], approvals := [wApprovedRec], nextId := 2 }

/-- Witness for C4: deciding an already-approved record fails with
InvalidTransition and the state is unchanged. -/
theorem decide_terminal_immutable_witness :
    (decideRecord wDecidedState 1 .reject "bob" none).1 =
      .error .invalid_transition :=
  ((decide_terminal_immutable wDecidedState 1 .reject "bob" none wApprovedRec
      (by decide)).1 (Or.inl rfl)).1

/-! Rule lookup after an update. -/

/-- Keyed find after a key-preserving conditional replacement. -/
theorem find?_key_map (l : List (String × Rule)) (act : String) (r' : Rule) :
    ((l.map (fun q => if q.1 = act then (q.1, r') else q)).find?
        (fun q => q.1 == act)) =
      (l.find? (fun q => q.1 == act)).map (fun q => (q.1, r')) := by
  induction l with
  | nil => rfl
  | cons a t ih =>
    by_cases h : a.1 = act
    · simp [List.find?_cons, h]
    · simp [List.find?_cons, h, ih]

/-- The stored rule after `updateRule` is the patched rule. -/
theorem lookupRule_updateRule (st : EngineState) (act : String) (p : RulePatch)
    (r : Rule) (hr : lookupRule st act = some r) :
    lookupRule (updateRule st act p) act = some
      { status := p.status.getD r.status,
        allow := p.allow.getD r.allow,
        approval_required := p.approval_required.getD r.approval_required,
        version := if p.editsBooleans then r.version + 1 else r.version } := by
  unfold updateRule
  rw [hr]
  show (((st.rules.map _).find? _).map Prod.snd) = _
  rw [find?_key_map]
  unfold lookupRule at hr
  cases hfind : st.rules.find? (fun q => q.1 == act) with
  | none => rw [hfind] at hr; cases hr
  | some q =>
    rw [hfind] at hr
    simp at hr
    simp [hfind, hr]

/-- C8 counterexample: from a `needs_review` rule, the UI's mark-reviewed
operation (which PUTs `status: "approved"`, policies page line 82) leaves
the rule with status "approved" — a value outside {active, needs_review},
and not the value "active" the claim requires mark-reviewed to produce. -/
theorem markReviewed_status_counterexample :
    ∃ r : Rule,
      lookupRule (markReviewed
        { rules := [("send_email", defaultRule)], approvals := [], nextId := 1 }
        "send_email") "send_email" = some r ∧
      r.status = "approved" ∧ r.status ≠ "active" ∧ r.status ≠ "needs_review" := by
  refine ⟨_, rfl, rfl, ?_, ?_⟩ <;> decide

/-- C8 amended: a rule's status changes from needs_review only via the
explicit mark-reviewed operation — which sets it to "approved" (the value
the UI PUTs), not "active" — and an `updateRule` whose patch carries no
status field (in particular the boolean-only patches the policies page
sends from `updateAction`) leaves the status unchanged. -/
theorem updateRule_status_frame (st : EngineState) (act : String)
    (p : RulePatch) (r : Rule) (hr : lookupRule st act = some r) :
    (p.status = none →
      ∃ r', lookupRule (updateRule st act p) act = some r' ∧
        r'.status = r.status) ∧
    (∃ r2, lookupRule (markReviewed st act) act = some r2 ∧
      r2.status = "approved") := by
  constructor
  · intro hnone
    exact ⟨_, lookupRule_updateRule st act p r hr, by rw [hnone]; rfl⟩
  · exact ⟨_, lookupRule_updateRule st act markReviewedPatch r hr, rfl⟩

/-- Witness for C8's amended claim: editing only the allow booleans of a
needs_review rule keeps status needs_review; mark-reviewed then stores
"approved". -/
theorem updateRule_status_frame_witness :
    (∃ r', lookupRule (updateRule
        { rules := [("send_email", defaultRule)], approvals := [], nextId := 1 }
        "send_email"
        { allow := some ⟨true, true, false⟩, approval_required := none,
          status := none }) "send_email" = some r' ∧
      r'.status = defaultRule.status) ∧
    (∃ r2, lookupRule (markReviewed
        { rules := [("send_email", defaultRule)], approvals := [], nextId := 1 }
        "send_email") "send_email" = some r2 ∧ r2.status = "approved") :=
  ⟨(updateRule_status_frame _ "send_email"
      { allow := some ⟨true, true, false⟩, approval_required := none,
        status := none } defaultRule (by decide)).1 rfl,
   (updateRule_status_frame _ "send_email" markReviewedPatch defaultRule
      (by decide)).2⟩

/-- The flags of `SdkCheckResponse` (api.ts) that the decision determines:
`blocked`, `approval_required` and the optional `approval_id`, as the
dashboard branches on them (blocked, else approval_required, else allowed). -/
structure SdkFlags where
  blocked : Bool
  approval_required : Bool
  approval_id : Option Nat
deriving DecidableEq, Repr

/-- Modelled from the spec: the response the SDK collaborator receives for
a decision (§4.3 step 6, §6): the flags assert exactly the decision's
outcome and carry its approval id. -/
def toSdkFlags (d : Decision) : SdkFlags :=
  { blocked := decide (d.outcome = .blocked),
    approval_required := decide (d.outcome = .approval_required),
    approval_id := d.approval_id }

/-- A freshly created record is pending in the created state. -/
theorem statusOfId_createRecord (st : EngineState) (agent act : String)
    (band : Band) (ver : Nat) :
    statusOfId (createRecord st agent act band ver).2 st.nextId =
      some .pending := by
  unfold createRecord statusOfId freshRec
  simp

/-- C5: every decision has exactly one outcome among blocked, allowed and
approval_required — the response never asserts blocked and approval_required
together — and an approval_required decision carries the id of a record
that is pending in the post-call state. -/
theorem evaluate_outcome_exclusive (st : EngineState) (hwf : WfIds st)
    (agent act : String) (band : Band) :
    ¬ ((toSdkFlags (evaluate st agent act band).1).blocked = true ∧
       (toSdkFlags (evaluate st agent act band).1).approval_required = true) ∧
    ((evaluate st agent act band).1.outcome = .blocked ∨
     (evaluate st agent act band).1.outcome = .allowed ∨
     (evaluate st agent act band).1.outcome = .approval_required) ∧
    ((evaluate st agent act band).1.outcome = .approval_required →
      ∃ i, (evaluate st agent act band).1.approval_id = some i ∧
        statusOfId (evaluate st agent act band).2 i = some .pending) := by
  refine ⟨?_, ?_, ?_⟩
  · rintro ⟨h1, h2⟩
    simp only [toSdkFlags, decide_eq_true_eq] at h1 h2
    rw [h1] at h2
    cases h2
  · cases h : (evaluate st agent act band).1.outcome <;> simp
  · intro houtcome
    by_cases hA : ((getRule st act).1).allow.get band = false
    · rw [evaluate_eq_blocked hA] at houtcome
      cases houtcome
    by_cases hB : ((getRule st act).1).approval_required.get band = false
    · rw [evaluate_eq_allowed hA hB] at houtcome
      cases houtcome
    cases hfind : (getRule st act).2.approvals.find? (isPendingFor agent act) with
    | some r0 =>
      by_cases hcond : r0.band = band ∧ r0.ruleVersion = ((getRule st act).1).version
      · rw [evaluate_eq_reuse hA hB hfind hcond]
        refine ⟨r0.id, rfl, ?_⟩
        have hmem : r0 ∈ st.approvals := by
          have := List.mem_of_find?_eq_some hfind
          rwa [getRule_approvals] at this
        have hpend : r0.status = ApprStatus.pending := by
          have := List.find?_some hfind
          simp only [isPendingFor, Bool.and_eq_true, decide_eq_true_eq] at this
          exact this.2
        unfold statusOfId
        rw [getRule_approvals, find?_id_of_mem hwf.1 hmem]
        simp [hpend]
      · rw [evaluate_eq_shift hA hB hfind hcond]
        exact ⟨_, rfl, statusOfId_createRecord _ agent act band _⟩
    | none =>
      rw [evaluate_eq_create hA hB hfind]
      exact ⟨_, rfl, statusOfId_createRecord _ agent act band _⟩

/-- The empty engine state. -/
def wEmptyState : EngineState := { rules := [], approvals := [], nextId := 1 }

/-- Witness for C5: on the empty state (id-distinct ledger), a first call
requires approval and its id denotes a pending record. -/
theorem evaluate_outcome_exclusive_witness :
    ¬ ((toSdkFlags (evaluate wEmptyState "A" "send_email" .red).1).blocked = true ∧
       (toSdkFlags (evaluate wEmptyState "A" "send_email" .red).1).approval_required
         = true) :=
  (evaluate_outcome_exclusive wEmptyState ⟨by simp [wEmptyState], by simp [wEmptyState]⟩
    "A" "send_email" .red).1

/-- Core concurrency invariant (§3, §5): at most one pending Approval
Record per (agent, action) pair. -/
def UniquePending (st : EngineState) : Prop :=
  ∀ agent act, (st.approvals.filter (isPendingFor agent act)).length ≤ 1

theorem lookupRule_congr {st st' : EngineState} (h : st.rules = st'.rules)
    (act : String) : lookupRule st act = lookupRule st' act := by
  unfold lookupRule
  rw [h]

/-- Expiring the stale record either fixes an element or makes it
non-pending. -/
theorem expireShift_fix {agent act : String} (i : Nat) :
    ∀ q, isPendingFor agent act (expireShift i q) = true → expireShift i q = q := by
  intro q hq
  unfold expireShift at hq ⊢
  by_cases hid : q.id = i
  · rw [if_pos hid] at hq
    simp [isPendingFor] at hq
  · rw [if_neg hid]

/-- One `evaluate` call preserves the unique-pending invariant. -/
theorem evaluate_unique_pending (st : EngineState) (hU : UniquePending st)
    (agent act : String) (band : Band) :
    UniquePending (evaluate st agent act band).2 := by
  rcases evaluate_cases st agent act band with
    ⟨happ, -, -⟩ | ⟨ver, happ, -, -, hfind⟩ | ⟨ver, r0, hfind, happ, -, -⟩
  · intro a b
    rw [happ]
    exact hU a b
  · intro a b
    rw [happ, List.filter_cons]
    by_cases hab : isPendingFor a b (freshRec st.nextId agent act band ver) = true
    · have hpair : agent = a ∧ act = b := by
        simpa [isPendingFor, freshRec] using hab
      rw [if_pos hab]
      have hnil : st.approvals.filter (isPendingFor a b) = [] := by
        rw [List.filter_eq_nil_iff]
        intro x hx
        rw [← hpair.1, ← hpair.2]
        exact List.find?_eq_none.mp hfind x hx
      rw [hnil]
      simp
    · rw [if_neg hab]
      exact hU a b
  · intro a b
    rw [happ, List.filter_cons]
    by_cases hab : isPendingFor a b (freshRec st.nextId agent act band ver) = true
    · have hpair : agent = a ∧ act = b := by
        simpa [isPendingFor, freshRec] using hab
      rw [if_pos hab, ← hpair.1, ← hpair.2]
      have hnil : (st.approvals.map (expireShift r0.id)).filter
          (isPendingFor agent act) = [] := by
        rw [List.filter_eq_nil_iff]
        intro x hx
        rcases List.mem_map.mp hx with ⟨q, hq, rfl⟩
        intro hpred
        by_cases hid : q.id = r0.id
        · unfold expireShift at hpred
          rw [if_pos hid] at hpred
          simp [isPendingFor] at hpred
        · rw [expireShift, if_neg hid] at hpred
          have hr0filter : r0 ∈ st.approvals.filter (isPendingFor agent act) :=
            List.mem_filter.mpr
              ⟨List.mem_of_find?_eq_some hfind, List.find?_some hfind⟩
          have hsing := eq_singleton_of_mem_of_length_le_one hr0filter
            (hU agent act)
          have hqfilter : q ∈ st.approvals.filter (isPendingFor agent act) :=
            List.mem_filter.mpr ⟨hq, hpred⟩
          rw [hsing, List.mem_singleton] at hqfilter
          exact hid (by rw [hqfilter])
      rw [hnil]
      simp
    · rw [if_neg hab]
      calc ((st.approvals.map (expireShift r0.id)).filter (isPendingFor a b)).length
          ≤ (st.approvals.filter (isPendingFor a b)).length :=
            length_filter_map_le _ _ (expireShift_fix r0.id) st.approvals
        _ ≤ 1 := hU a b

/-- A second, identical call right after a record creation reuses that
record and changes nothing. -/
theorem evaluate_after_create (stc : EngineState) (agent act : String)
    (band : Band) (ru : Rule) (hru : lookupRule stc act = some ru)
    (hA : ¬ ru.allow.get band = false)
    (hB : ¬ ru.approval_required.get band = false) :
    evaluate (createRecord stc agent act band ru.version).2 agent act band =
      createRecord stc agent act band ru.version := by
  have hlook : lookupRule (createRecord stc agent act band ru.version).2 act =
      some ru := by
    exact hru
  have hg : getRule (createRecord stc agent act band ru.version).2 act =
      (ru, (createRecord stc agent act band ru.version).2) :=
    getRule_of_lookup hlook
  have hA' : ¬ ((getRule (createRecord stc agent act band ru.version).2 act).1).allow.get
      band = false := by rw [hg]; exact hA
  have hB' : ¬ ((getRule (createRecord stc agent act band ru.version).2 act).1).approval_required.get
      band = false := by rw [hg]; exact hB
  have hfind : (getRule (createRecord stc agent act band ru.version).2 act).2.approvals.find?
      (isPendingFor agent act) =
      some (freshRec stc.nextId agent act band ru.version) := by
    rw [hg]
    exact List.find?_cons_of_pos _ (by simp [isPendingFor, freshRec])
  have hcond : (freshRec stc.nextId agent act band ru.version).band = band ∧
      (freshRec stc.nextId agent act band ru.version).ruleVersion =
        ((getRule (createRecord stc agent act band ru.version).2 act).1).version :=
    ⟨rfl, by rw [hg]; rfl⟩
  rw [evaluate_eq_reuse hA' hB' hfind hcond, hg]
  rfl

/-- A repeated `evaluate` call with unchanged band returns the same decision
and leaves the state unchanged. -/
theorem evaluate_idem (st : EngineState) (agent act : String) (band : Band) :
    evaluate (evaluate st agent act band).2 agent act band =
      evaluate st agent act band := by
  have hg1 : getRule (getRule st act).2 act =
      ((getRule st act).1, (getRule st act).2) :=
    getRule_of_lookup (lookupRule_getRule st act)
  by_cases hA : ((getRule st act).1).allow.get band = false
  · have hA1 : ((getRule (getRule st act).2 act).1).allow.get band = false := by
      rw [hg1]; exact hA
    rw [evaluate_eq_blocked hA]
    show evaluate (getRule st act).2 agent act band = _
    rw [evaluate_eq_blocked hA1, hg1]
  by_cases hB : ((getRule st act).1).approval_required.get band = false
  · have hA1 : ¬ ((getRule (getRule st act).2 act).1).allow.get band = false := by
      rw [hg1]; exact hA
    have hB1 : ((getRule (getRule st act).2 act).1).approval_required.get band
        = false := by rw [hg1]; exact hB
    rw [evaluate_eq_allowed hA hB]
    show evaluate (getRule st act).2 agent act band = _
    rw [evaluate_eq_allowed hA1 hB1, hg1]
  cases hfind : (getRule st act).2.approvals.find? (isPendingFor agent act) with
  | some r0 =>
    by_cases hcond : r0.band = band ∧ r0.ruleVersion = ((getRule st act).1).version
    · have hA1 : ¬ ((getRule (getRule st act).2 act).1).allow.get band = false := by
        rw [hg1]; exact hA
      have hB1 : ¬ ((getRule (getRule st act).2 act).1).approval_required.get band
          = false := by rw [hg1]; exact hB
      have hfind1 : (getRule (getRule st act).2 act).2.approvals.find?
          (isPendingFor agent act) = some r0 := by rw [hg1]; exact hfind
      have hcond1 : r0.band = band ∧ r0.ruleVersion =
          ((getRule (getRule st act).2 act).1).version :=
        ⟨hcond.1, by rw [hg1]; exact hcond.2⟩
      rw [evaluate_eq_reuse hA hB hfind hcond]
      show evaluate (getRule st act).2 agent act band = _
      rw [evaluate_eq_reuse hA1 hB1 hfind1 hcond1, hg1]
    · rw [evaluate_eq_shift hA hB hfind hcond]
      exact evaluate_after_create _ agent act band ((getRule st act).1)
        (by exact lookupRule_getRule st act) hA hB
  | none =>
    rw [evaluate_eq_create hA hB hfind]
    exact evaluate_after_create _ agent act band ((getRule st act).1)
      (lookupRule_getRule st act) hA hB

/-- C1: across repeated `evaluate` calls with unchanged band (and the rule
untouched in between), at most one pending Approval Record exists per
(agent, action) pair, and a repeated call returns the very same decision —
in particular the same approval id — while leaving the ledger unchanged:
the existing pending record is reused rather than duplicated. -/
theorem evaluate_idempotent_reuse (st : EngineState) (hU : UniquePending st)
    (agent act : String) (band : Band) :
    UniquePending (evaluate st agent act band).2 ∧
    evaluate (evaluate st agent act band).2 agent act band =
      evaluate st agent act band :=
  ⟨evaluate_unique_pending st hU agent act band,
   evaluate_idem st agent act band⟩

/-- Witness for C1: from the empty state, the second identical call reuses
the record created by the first and the state is unchanged. -/
theorem evaluate_idempotent_reuse_witness :
    evaluate (evaluate wEmptyState "A" "send_email" .red).2 "A" "send_email"
        .red = evaluate wEmptyState "A" "send_email" .red :=
  (evaluate_idempotent_reuse wEmptyState
    (fun a b => by simp [wEmptyState]) "A" "send_email" .red).2

/-! Preservation of the ledger invariants along every operation. -/

theorem expireShift_id (i : Nat) : ∀ q, (expireShift i q).id = q.id := by
  intro q
  unfold expireShift
  split_ifs <;> rfl

theorem expirePolicy_id (act : String) :
    ∀ q, (expirePolicy act q).id = q.id := by
  intro q
  unfold expirePolicy
  split_ifs <;> rfl

theorem pairwise_ids_map {f : ApprovalRecord → ApprovalRecord}
    (hf : ∀ q, (f q).id = q.id) {l : List ApprovalRecord}
    (h : l.Pairwise (fun a b => a.id ≠ b.id)) :
    (l.map f).Pairwise (fun a b => a.id ≠ b.id) :=
  List.pairwise_map.mpr (h.imp (fun hab => by rw [hf, hf]; exact hab))

theorem statusOfId_eq_some {st : EngineState} {i : Nat} {s : ApprStatus}
    (h : statusOfId st i = some s) :
    ∃ w, st.approvals.find? (fun r => r.id == i) = some w ∧ w.status = s := by
  unfold statusOfId at h
  cases hf : st.approvals.find? (fun r => r.id == i) with
  | none => rw [hf] at h; cases h
  | some w => rw [hf] at h; exact ⟨w, rfl, by simpa using h⟩

theorem evaluate_wf (st : EngineState) (hwf : WfIds st) (agent act : String)
    (band : Band) : WfIds (evaluate st agent act band).2 := by
  rcases evaluate_cases st agent act band with
    ⟨happ, hnext, -⟩ | ⟨ver, happ, hnext, -, -⟩ | ⟨ver, r0, -, happ, hnext, -⟩
  · refine ⟨?_, ?_⟩
    · rw [happ]
      exact hwf.1
    · intro r hr
      rw [happ] at hr
      rw [hnext]
      exact hwf.2 r hr
  · refine ⟨?_, ?_⟩
    · rw [happ]
      refine List.pairwise_cons.mpr ⟨?_, hwf.1⟩
      intro b hb
      have := hwf.2 b hb
      simp only [freshRec]
      omega
    · intro r hr
      rw [happ] at hr
      rw [hnext]
      rcases List.mem_cons.mp hr with h | h
      · rw [h]
        simp [freshRec]
      · have := hwf.2 r h
        omega
  · refine ⟨?_, ?_⟩
    · rw [happ]
      refine List.pairwise_cons.mpr
        ⟨?_, pairwise_ids_map (expireShift_id r0.id) hwf.1⟩
      intro b hb
      rcases List.mem_map.mp hb with ⟨q, hq, rfl⟩
      rw [expireShift_id]
      have := hwf.2 q hq
      simp only [freshRec]
      omega
    · intro r hr
      rw [happ] at hr
      rw [hnext]
      rcases List.mem_cons.mp hr with h | h
      · rw [h]
        simp [freshRec]
      · rcases List.mem_map.mp h with ⟨q, hq, rfl⟩
        rw [expireShift_id]
        have := hwf.2 q hq
        omega

theorem evaluate_nextId_le (st : EngineState) (agent act : String)
    (band : Band) : st.nextId ≤ (evaluate st agent act band).2.nextId := by
  rcases evaluate_cases st agent act band with
    ⟨-, hnext, -⟩ | ⟨ver, -, hnext, -, -⟩ | ⟨ver, r0, -, -, hnext, -⟩ <;>
    omega

theorem evaluate_terminal (st : EngineState) (hwf : WfIds st)
    (agent act : String) (band : Band) (i : Nat) (s : ApprStatus)
    (hs : s ≠ .pending) (h : statusOfId st i = some s) :
    statusOfId (evaluate st agent act band).2 i = some s := by
  obtain ⟨w, hw, hws⟩ := statusOfId_eq_some h
  have hwid : w.id = i := by simpa using List.find?_some hw
  have hwmem : w ∈ st.approvals := List.mem_of_find?_eq_some hw
  have hilt : i < st.nextId := hwid ▸ hwf.2 w hwmem
  rcases evaluate_cases st agent act band with
    ⟨happ, -, -⟩ | ⟨ver, happ, -, -, -⟩ | ⟨ver, r0, hfind, happ, -, -⟩
  · unfold statusOfId
    rw [happ, hw]
    simp [hws]
  · have hne : ¬ ((freshRec st.nextId agent act band ver).id == i) = true := by
      simp only [freshRec, beq_iff_eq]
      omega
    unfold statusOfId
    rw [happ, List.find?_cons_of_neg (p := fun (r : ApprovalRecord) => r.id == i) _ hne, hw]
    simp [hws]
  · have hne : ¬ ((freshRec st.nextId agent act band ver).id == i) = true := by
      simp only [freshRec, beq_iff_eq]
      omega
    have hr0mem : r0 ∈ st.approvals := List.mem_of_find?_eq_some hfind
    have hr0pend : r0.status = ApprStatus.pending := by
      have := List.find?_some hfind
      simp only [isPendingFor, Bool.and_eq_true, decide_eq_true_eq] at this
      exact this.2
    have hwne : w.id ≠ r0.id := by
      intro heq
      have hwr : w = r0 := eq_of_mem_of_id_eq hwf.1 hwmem hr0mem heq
      exact hs (by rw [← hws, hwr, hr0pend])
    have hfix : expireShift r0.id w = w := by
      unfold expireShift
      rw [if_neg hwne]
    unfold statusOfId
    rw [happ, List.find?_cons_of_neg (p := fun (r : ApprovalRecord) => r.id == i) _ hne,
      find?_id_map (expireShift_id r0.id), hw]
    simp [hfix, hws]

theorem updateRule_nextId (st : EngineState) (act : String) (p : RulePatch) :
    (updateRule st act p).nextId = st.nextId := by
  unfold updateRule
  cases h : lookupRule st act <;> simp

theorem updateRule_approvals_shape (st : EngineState) (act : String)
    (p : RulePatch) :
    (updateRule st act p).approvals = st.approvals ∨
    (updateRule st act p).approvals = st.approvals.map (expirePolicy act) := by
  unfold updateRule
  cases h : lookupRule st act with
  | none => exact Or.inl rfl
  | some r =>
    by_cases hp : p.editsBooleans = true
    · right
      simp [hp]
    · left
      simp [hp]

theorem updateRule_wf (st : EngineState) (hwf : WfIds st) (act : String)
    (p : RulePatch) : WfIds (updateRule st act p) := by
  rcases updateRule_approvals_shape st act p with h | h
  · refine ⟨?_, ?_⟩
    · rw [h]
      exact hwf.1
    · intro r hr
      rw [updateRule_nextId]
      exact hwf.2 r (h ▸ hr)
  · refine ⟨?_, ?_⟩
    · rw [h]
      exact pairwise_ids_map (expirePolicy_id act) hwf.1
    · intro r hr
      rw [updateRule_nextId]
      rw [h] at hr
      rcases List.mem_map.mp hr with ⟨q, hq, rfl⟩
      rw [expirePolicy_id]
      exact hwf.2 q hq

theorem updateRule_terminal (st : EngineState) (act : String) (p : RulePatch)
    (i : Nat) (s : ApprStatus) (hs : s ≠ .pending)
    (h : statusOfId st i = some s) :
    statusOfId (updateRule st act p) i = some s := by
  obtain ⟨w, hw, hws⟩ := statusOfId_eq_some h
  rcases updateRule_approvals_shape st act p with happ | happ
  · unfold statusOfId
    rw [happ, hw]
    simp [hws]
  · have hcond : (w.action_name == act &&
        decide (w.status = ApprStatus.pending)) = false := by
      rw [hws]
      simp [hs]
    have hfix : expirePolicy act w = w := by
      simp [expirePolicy, hcond]
    unfold statusOfId
    rw [happ, find?_id_map (expirePolicy_id act), hw]
    simp [hfix, hws]

theorem decideRecord_nextId (st : EngineState) (i : Nat) (c : DecideChoice)
    (d : String) (note : Option String) :
    (decideRecord st i c d note).2.nextId = st.nextId := by
  unfold decideRecord
  cases h : st.approvals.find? (fun r => r.id == i) with
  | none => simp
  | some r => by_cases hp : r.status = ApprStatus.pending <;> simp [hp]

theorem decideRecord_approvals_shape (st : EngineState) (i : Nat)
    (c : DecideChoice) (d : String) (note : Option String) :
    (decideRecord st i c d note).2.approvals = st.approvals ∨
    ∃ r, st.approvals.find? (fun q => q.id == i) = some r ∧
      r.status = ApprStatus.pending ∧
      (decideRecord st i c d note).2.approvals = st.approvals.map (fun q =>
        if q.id = i then decidedRec r c d note else q) := by
  unfold decideRecord
  cases h : st.approvals.find? (fun r => r.id == i) with
  | none => exact Or.inl rfl
  | some r =>
    by_cases hp : r.status = ApprStatus.pending
    · right
      exact ⟨r, rfl, hp, by simp [hp]⟩
    · left
      simp [hp]

theorem decideRecord_wf (st : EngineState) (hwf : WfIds st) (i : Nat)
    (c : DecideChoice) (d : String) (note : Option String) :
    WfIds (decideRecord st i c d note).2 := by
  rcases decideRecord_approvals_shape st i c d note with h | ⟨r, hr, hp, h⟩
  · refine ⟨?_, ?_⟩
    · rw [h]
      exact hwf.1
    · intro q hq
      rw [decideRecord_nextId]
      exact hwf.2 q (h ▸ hq)
  · have hrid : r.id = i := by simpa using List.find?_some hr
    have hfid : ∀ q : ApprovalRecord,
        ((fun q => if q.id = i then decidedRec r c d note else q) q).id =
          q.id := by
      intro q
      by_cases hq : q.id = i
      · simp [hq, hrid, decidedRec]
      · simp [hq]
    refine ⟨?_, ?_⟩
    · rw [h]
      exact pairwise_ids_map hfid hwf.1
    · intro q hq
      rw [decideRecord_nextId]
      rw [h] at hq
      rcases List.mem_map.mp hq with ⟨q0, hq0, rfl⟩
      rw [hfid]
      exact hwf.2 q0 hq0

theorem decideRecord_terminal (st : EngineState) (hwf : WfIds st) (i : Nat)
    (c : DecideChoice) (d : String) (note : Option String) (j : Nat)
    (s : ApprStatus) (hs : s ≠ .pending) (h : statusOfId st j = some s) :
    statusOfId (decideRecord st i c d note).2 j = some s := by
  obtain ⟨w, hw, hws⟩ := statusOfId_eq_some h
  rcases decideRecord_approvals_shape st i c d note with happ | ⟨r, hr, hp, happ⟩
  · unfold statusOfId
    rw [happ, hw]
    simp [hws]
  · have hrid : r.id = i := by simpa using List.find?_some hr
    have hfid : ∀ q : ApprovalRecord,
        ((fun q => if q.id = i then decidedRec r c d note else q) q).id =
          q.id := by
      intro q
      by_cases hq : q.id = i
      · simp [hq, hrid, decidedRec]
      · simp [hq]
    have hwne : w.id ≠ i := by
      intro heq
      have hwr : w = r := eq_of_mem_of_id_eq hwf.1
        (List.mem_of_find?_eq_some hw) (List.mem_of_find?_eq_some hr)
        (heq.trans hrid.symm)
      exact hs (by rw [← hws, hwr, hp])
    unfold statusOfId
    rw [happ, find?_id_map hfid, hw]
    simp [hwne, hws]

theorem step_wf {a b : EngineState} (hwf : WfIds a) (h : Step a b) :
    WfIds b := by
  cases h with
  | eval agent act band => exact evaluate_wf a hwf agent act band
  | update act p => exact updateRule_wf a hwf act p
  | decided i c d note => exact decideRecord_wf a hwf i c d note

theorem step_nextId_le {a b : EngineState} (h : Step a b) :
    a.nextId ≤ b.nextId := by
  cases h with
  | eval agent act band => exact evaluate_nextId_le a agent act band
  | update act p => exact le_of_eq (updateRule_nextId a act p).symm
  | decided i c d note => exact le_of_eq (decideRecord_nextId a i c d note).symm

theorem step_terminal {a b : EngineState} (hwf : WfIds a) (h : Step a b)
    {i : Nat} {s : ApprStatus} (hs : s ≠ .pending)
    (hst : statusOfId a i = some s) : statusOfId b i = some s := by
  cases h with
  | eval agent act band => exact evaluate_terminal a hwf agent act band i s hs hst
  | update act p => exact updateRule_terminal a act p i s hs hst
  | decided j c d note => exact decideRecord_terminal a hwf j c d note i s hs hst

/-- Along any reachable future, well-formedness holds, the fresh-id counter
never decreases, and a non-pending record keeps its status forever. -/
theorem reach_preserves {a b : EngineState}
    (h : Relation.ReflTransGen Step a b) (hwf : WfIds a) :
    WfIds b ∧ a.nextId ≤ b.nextId ∧
    ∀ i s, s ≠ ApprStatus.pending → statusOfId a i = some s →
      statusOfId b i = some s := by
  induction h with
  | refl => exact ⟨hwf, le_refl _, fun i s _ h => h⟩
  | tail hab hbc ih =>
    rcases ih with ⟨hwfb, hle, hpres⟩
    exact ⟨step_wf hwfb hbc, le_trans hle (step_nextId_le hbc),
      fun i s hs hst => step_terminal hwfb hbc hs (hpres i s hs hst)⟩

/-- Every approval id a decision carries is either reused from a record
that was pending before the call or freshly allocated at the call. -/
theorem evaluate_approval_id_cases (st : EngineState) (agent act : String)
    (band : Band) :
    (evaluate st agent act band).1.approval_id = none ∨
    (∃ q, q ∈ st.approvals ∧ q.status = ApprStatus.pending ∧
      (evaluate st agent act band).1.approval_id = some q.id) ∨
    (evaluate st agent act band).1.approval_id = some st.nextId := by
  rcases evaluate_cases st agent act band with
    ⟨-, -, hid⟩ | ⟨ver, -, -, hid, -⟩ | ⟨ver, r0, -, -, -, hid⟩
  · rcases hid with h | ⟨r0, hfind, h⟩
    · exact Or.inl h
    · refine Or.inr (Or.inl ⟨r0, List.mem_of_find?_eq_some hfind, ?_, h⟩)
      have := List.find?_some hfind
      simp only [isPendingFor, Bool.and_eq_true, decide_eq_true_eq] at this
      exact this.2
  · exact Or.inr (Or.inr hid)
  · exact Or.inr (Or.inr hid)

/-- C3: an `updateRule` whose patch edits the allow/approval booleans
transitions every pending Approval Record of the action to policy_expired,
and in every state reachable afterwards (by further evaluate, updateRule or
decide calls) no `evaluate` response ever carries that record's id again. -/
theorem updateRule_expires_pending_forever (st : EngineState) (act : String)
    (p : RulePatch) (hp : p.editsBooleans = true) (ru : Rule)
    (hrule : lookupRule st act = some ru) (hwf : WfIds st)
    (r : ApprovalRecord) (hr : r ∈ st.approvals)
    (hpend : r.status = .pending) (hact : r.action_name = act) :
    statusOfId (updateRule st act p) r.id = some .policy_expired ∧
    ∀ st'', Relation.ReflTransGen Step (updateRule st act p) st'' →
      ∀ agent act2 band,
        (evaluate st'' agent act2 band).1.approval_id ≠ some r.id := by
  have happ : (updateRule st act p).approvals =
      st.approvals.map (expirePolicy act) := by
    unfold updateRule
    rw [hrule]
    simp [hp]
  have hcond : (r.action_name == act &&
      decide (r.status = ApprStatus.pending)) = true := by
    simp [hact, hpend]
  have hexp : expirePolicy act r = { r with status := .policy_expired } := by
    simp [expirePolicy, hcond]
  have h1 : statusOfId (updateRule st act p) r.id = some .policy_expired := by
    unfold statusOfId
    rw [happ, find?_id_map (expirePolicy_id act), find?_id_of_mem hwf.1 hr]
    simp [hexp]
  refine ⟨h1, ?_⟩
  intro st'' hreach agent act2 band hcontra
  have hwfU : WfIds (updateRule st act p) := updateRule_wf st hwf act p
  obtain ⟨hwf'', hle, hpres⟩ := reach_preserves hreach hwfU
  have hstat'' : statusOfId st'' r.id = some .policy_expired :=
    hpres r.id .policy_expired (by simp) h1
  have hlt : r.id < st''.nextId := by
    have h2 : r.id < st.nextId := hwf.2 r hr
    have h3 : (updateRule st act p).nextId = st.nextId :=
      updateRule_nextId st act p
    omega
  rcases evaluate_approval_id_cases st'' agent act2 band with
    h | ⟨q, hqmem, hqpend, hqid⟩ | h
  · rw [h] at hcontra
    cases hcontra
  · rw [hqid] at hcontra
    have hqr : q.id = r.id := by injection hcontra
    obtain ⟨w, hw, hws⟩ := statusOfId_eq_some hstat''
    have hwid : w.id = r.id := by simpa using List.find?_some hw
    have hqw : q = w := eq_of_mem_of_id_eq hwf''.1 hqmem
      (List.mem_of_find?_eq_some hw) (hqr.trans hwid.symm)
    rw [hqw, hws] at hqpend
    cases hqpend
  · rw [h] at hcontra
    have : st''.nextId = r.id := by injection hcontra
    omega

/-- A pending record for agent A on send_email, used by the C3 witness. -/
def wPendingRec : ApprovalRecord :=
  { id := 1, agent_id := "A", action_name := "send_email", band := .red,
    status := .pending, ruleVersion := 0, decided_by := none, note := none }

/-- A state holding one pending record and the default rule. -/
def wPendingState : EngineState :=
  { rules := [("send_email", defaultRule)], approvals := [wPendingRec],
    nextId := 2 }

/-- A patch editing only the allow booleans. -/
def wBoolPatch : RulePatch :=
  { allow := some ⟨true, true, false⟩, approval_required := none,
    status := none }

/-- Witness for C3: updating the send_email rule's booleans expires the
pending record. -/
theorem updateRule_expires_pending_forever_witness :
    statusOfId (updateRule wPendingState "send_email" wBoolPatch) 1 =
      some .policy_expired :=
  (updateRule_expires_pending_forever wPendingState "send_email" wBoolPatch
    (by decide) defaultRule (by decide)
    ⟨by simp [wPendingState], by
      intro r hr
      simp only [wPendingState, List.mem_singleton] at hr
      rw [hr]
      decide⟩
    wPendingRec (by simp [wPendingState]) rfl rfl).1

end Governance
